import Mathlib

/-!
Shallow embedding of the `schedule` task-scheduling library: the FIFO
scheduler, the partitioned scheduler, the resource-managed scheduler
(`scheduler.go`) and the resource vector pool (`resource.go`), together
with proofs about the specified behaviour.  Everything lives in the
`Schedule` namespace (the Go package name).

Modelling conventions:
* Go maps `map[string]struct{}` are modelled as their key lists.
* Go `uint` becomes `Nat`; Go `int` becomes `Int`; `uint8` arithmetic is
  taken modulo 256.
* The single mutable resource pool is threaded explicitly as its vector
  of available counts (`List Int`); a handle's back-reference
  `pool *resourceVectorPool` is modelled by the `Bool` field `pool`
  (`true` iff the back-reference is present, i.e. non-nil).
* The `Scheduler` interface is modelled by a record of operations
  `SchedulerImpl σ` over an abstract state type `σ`, so that the
  partitioned and resource-managed schedulers are generic in their
  sub-schedulers, exactly as in the source.
-/

namespace Schedule

/-- A `Task` is a unit of work identified by a stable string identifier
(the Go `Task` interface exposing `Id() string`). -/
structure Task where
  id : String
deriving DecidableEq, Repr

/-- `defaultScheduledTask`: the wrapper in which the FIFO scheduler (and,
transitively, the partitioned scheduler) returns a task from `Next`; its
Go `Close` is a no-op, so it carries no further state. -/
structure ScheduledTask where
  task : Task
deriving DecidableEq, Repr

/-- `resourceVector` from `resource.go`: a resource request or granted
handle.  `pool` models the back-reference `pool *resourceVectorPool`
(`true` iff non-nil); `resources` is the `[]int` vector. -/
structure ResourceVector where
  pool : Bool
  resources : List Int
deriving DecidableEq, Repr

/-- `NewResourceVectorRequest`: builds a request with no pool
back-reference (`pool: nil` in the source). -/
def NewResourceVectorRequest (res : List Int) : ResourceVector :=
  { pool := false, resources := res }

/-- `resourceVectorPool.add`: under the pool mutex, add the handle's
vector componentwise to the available counts, rejecting a length
mismatch.  The pool state is its available-count vector. -/
def poolAdd (avail : List Int) (v : ResourceVector) : Bool × List Int :=
  if avail.length ≠ v.resources.length then (false, avail)
  else (true, List.zipWith (· + ·) avail v.resources)

/-- `resourceVector.Return`: if the back-reference is absent return
`false`; otherwise add the vector back to the pool, null out the
back-reference and return `true` (the result of `add` is discarded, as
in the source). -/
def ResourceVector.Return (r : ResourceVector) (avail : List Int) :
    Bool × ResourceVector × List Int :=
  if r.pool = false then (false, r, avail)
  else
    let res := poolAdd avail r
    (true, { r with pool := false }, res.2)

/-- The componentwise exceed check of `resourceVectorPool.Request`:
the Go loop `for i := range r.resources` testing
`v.resources[i] > r.resources[i]` (both vectors have equal length at the
call site). -/
def anyExceeds : List Int → List Int → Bool
  | a :: as, v :: vs => decide (a < v) || anyExceeds as vs
  | _, _ => false

/-- `resourceVectorPool.Request`: deny on a length mismatch or when any
component of the request exceeds the available count; otherwise subtract
the request from the available counts and grant a fresh handle carrying
a copy of the request vector and a back-reference to the pool. -/
def Request (avail : List Int) (res : ResourceVector) :
    Option ResourceVector × List Int :=
  if res.resources.length ≠ avail.length then (none, avail)
  else if anyExceeds avail res.resources then (none, avail)
  else (some { pool := true, resources := res.resources },
        List.zipWith (· - ·) avail res.resources)

/-- `resourceTask` from `scheduler.go`: a `ScheduledTask` that attaches a
task to the resource granted for it. -/
structure resourceTask where
  t : Task
  resource : ResourceVector
deriving DecidableEq, Repr

/-- `resourceTask.Close`: return the attached resource to the pool
(the boolean result of `Return` is discarded). -/
def resourceTask.Close (r : resourceTask) (avail : List Int) :
    resourceTask × List Int :=
  let res := r.resource.Return avail
  ({ r with resource := res.2.1 }, res.2.2)

/-! ### FIFO scheduler -/

/-- `FifoScheduler`: an ordered sequence of tasks together with the side
index `elementMap` (a `map[string]struct{}`, modelled by its key list)
and the `uint8` reallocation counters. -/
structure FifoScheduler where
  elements : List Task
  elementMap : List String
  maxUnusedSliceSpace : Nat
  unusedSliceCount : Nat
deriving DecidableEq, Repr

/-- `NewFifoScheduler`: empty sequence, empty index, threshold 16. -/
def NewFifoScheduler : FifoScheduler :=
  { elements := [], elementMap := [], maxUnusedSliceSpace := 16, unusedSliceCount := 0 }

/-- `FifoScheduler.Contains`: membership in the side index. -/
def FifoScheduler.Contains (f : FifoScheduler) (t : Task) : Bool :=
  f.elementMap.contains t.id

/-- One iteration of the `FifoScheduler.Put` loop: append the task and
index its identifier iff the identifier is not already indexed. -/
def FifoScheduler.putOne (f : FifoScheduler) (t : Task) : FifoScheduler :=
  if f.elementMap.contains t.id then f
  else
    { f with
      elements := f.elements ++ [t],
      unusedSliceCount := (f.unusedSliceCount + 1) % 256,
      elementMap := f.elementMap ++ [t.id] }

/-- `FifoScheduler.Put`: insert each task in order, then perform the
storage-reclamation step (which only resets the `uint8` counter in the
model; the reallocated slice holds the same elements). -/
def FifoScheduler.Put (f : FifoScheduler) (ts : List Task) : FifoScheduler :=
  let g := ts.foldl FifoScheduler.putOne f
  if g.maxUnusedSliceSpace ≤ g.unusedSliceCount then { g with unusedSliceCount := 0 }
  else g

/-- `FifoScheduler.Next`: pop the head of the sequence and delete its
identifier from the index. -/
def FifoScheduler.Next (f : FifoScheduler) : Option ScheduledTask × FifoScheduler :=
  match f.elements with
  | [] => (none, f)
  | s :: rest =>
    (some ⟨s⟩, { f with elements := rest, elementMap := f.elementMap.filter (· ≠ s.id) })

/-- The linear scan of `FifoScheduler.Remove`: excise the first element
with the given identifier. -/
def fifoRemoveAux : List Task → String → Option Task × List Task
  | [], _ => (none, [])
  | e :: rest, i =>
    if e.id = i then (some e, rest)
    else
      let res := fifoRemoveAux rest i
      (res.1, e :: res.2)

/-- `FifoScheduler.Remove`: linear scan by identifier; on a hit, delete
the identifier from the index and splice the element out. -/
def FifoScheduler.Remove (f : FifoScheduler) (i : String) : Option Task × FifoScheduler :=
  match fifoRemoveAux f.elements i with
  | (none, _) => (none, f)
  | (some t, es) =>
    (some t, { f with elements := es, elementMap := f.elementMap.filter (· ≠ t.id) })

/-- `FifoScheduler.Size`: length of the element sequence. -/
def FifoScheduler.Size (f : FifoScheduler) : Nat :=
  f.elements.length

/-- Apply `f` to the element at index `i` (the identity beyond the end):
the in-place update of a Go slice element. -/
def modifyAt (f : α → α) : Nat → List α → List α
  | _, [] => []
  | 0, x :: xs => f x :: xs
  | n + 1, x :: xs => x :: modifyAt f n xs

/-- The Go `Scheduler` interface, as a record of operations over an
abstract scheduler state `σ`. -/
structure SchedulerImpl (σ : Type) where
  contains : σ → Task → Bool
  put : σ → List Task → σ
  next : σ → Option ScheduledTask × σ
  size : σ → Nat
  remove : σ → String → Option Task × σ

/-- The FIFO scheduler as an implementation of the interface. -/
def fifoImpl : SchedulerImpl FifoScheduler :=
  { contains := FifoScheduler.Contains
    put := FifoScheduler.Put
    next := FifoScheduler.Next
    size := FifoScheduler.Size
    remove := FifoScheduler.Remove }

/-- The outputs of `n` successive `Next` calls on a FIFO scheduler. -/
def fifoDrain (f : FifoScheduler) : Nat → List (Option ScheduledTask)
  | 0 => []
  | n + 1 => (f.Next).1 :: fifoDrain (f.Next).2 n

/-! ### Resource-managed scheduler

The pool field `pool ResourcePool` is the shared vector pool; its state
(the available-count vector) is threaded explicitly through `Next`. -/

/-- `ResourceManagedScheduler`: the parked slot `waiting`
(`nil` ↦ `none`), the underlying scheduler state, and the resource
calculator. -/
structure ResourceManagedScheduler (σ : Type) where
  waiting : Option Task
  underlying : σ
  resourceCalculator : Task → ResourceVector

/-- `NewResourceManagedScheduler`: empty parked slot. -/
def NewResourceManagedScheduler (underlying : σ) (calc2 : Task → ResourceVector) :
    ResourceManagedScheduler σ :=
  { waiting := none, underlying := underlying, resourceCalculator := calc2 }

/-- `ResourceManagedScheduler.Contains`: the parked task or the
underlying scheduler contains the identifier. -/
def ResourceManagedScheduler.Contains (impl : SchedulerImpl σ)
    (r : ResourceManagedScheduler σ) (t : Task) : Bool :=
  (match r.waiting with
   | some w => w.id = t.id
   | none => false) || impl.contains r.underlying t

/-- `ResourceManagedScheduler.Put`: delegate to the underlying scheduler
(no check against the parked slot). -/
def ResourceManagedScheduler.Put (impl : SchedulerImpl σ)
    (r : ResourceManagedScheduler σ) (ts : List Task) : ResourceManagedScheduler σ :=
  { r with underlying := impl.put r.underlying ts }

/-- `ResourceManagedScheduler.Next`: if a task is parked, retry its
resource request; otherwise draw from the underlying scheduler and
request resources for the drawn task, parking it on denial. -/
def ResourceManagedScheduler.Next (impl : SchedulerImpl σ)
    (r : ResourceManagedScheduler σ) (avail : List Int) :
    Option resourceTask × ResourceManagedScheduler σ × List Int :=
  match r.waiting with
  | some w =>
    match Request avail (r.resourceCalculator w) with
    | (none, avail2) => (none, r, avail2)
    | (some allocated, avail2) =>
      (some ⟨w, allocated⟩, { r with waiting := none }, avail2)
  | none =>
    match impl.next r.underlying with
    | (none, u2) => (none, { r with underlying := u2 }, avail)
    | (some nt, u2) =>
      match Request avail (r.resourceCalculator nt.task) with
      | (none, avail2) =>
        (none, { r with underlying := u2, waiting := some nt.task }, avail2)
      | (some allocated, avail2) =>
        (some ⟨nt.task, allocated⟩, { r with underlying := u2 }, avail2)

/-- `ResourceManagedScheduler.Remove`: if the parked task has the
identifier, return it (the source does not clear the parked slot);
otherwise delegate. -/
def ResourceManagedScheduler.Remove (impl : SchedulerImpl σ)
    (r : ResourceManagedScheduler σ) (i : String) :
    Option Task × ResourceManagedScheduler σ :=
  match r.waiting with
  | some w =>
    if w.id = i then (some w, r)
    else
      let res := impl.remove r.underlying i
      (res.1, { r with underlying := res.2 })
  | none =>
    let res := impl.remove r.underlying i
    (res.1, { r with underlying := res.2 })

/-- `ResourceManagedScheduler.Size`: underlying size plus one if a task
is parked. -/
def ResourceManagedScheduler.Size (impl : SchedulerImpl σ)
    (r : ResourceManagedScheduler σ) : Nat :=
  match r.waiting with
  | none => impl.size r.underlying
  | some _ => 1 + impl.size r.underlying

/-- Iterate `Next` on a resource-managed scheduler and its pool,
discarding the outputs. -/
def rmsIterNext (impl : SchedulerImpl σ) :
    Nat → ResourceManagedScheduler σ × List Int →
      ResourceManagedScheduler σ × List Int
  | 0, s => s
  | n + 1, (r, a) =>
    let res := ResourceManagedScheduler.Next impl r a
    rmsIterNext impl n (res.2.1, res.2.2)

/-- The parked state reached on a resource-managed scheduler over a FIFO
with pool `[0]` and calculator always `[1]`, after `Put t1; Next` (the
`Next` draws `t1`, is denied, and parks it). -/
def rmsParkedState : ResourceManagedScheduler FifoScheduler :=
  ((NewResourceManagedScheduler NewFifoScheduler
      (fun _ => NewResourceVectorRequest [1])).Put fifoImpl [⟨"1"⟩] |>.Next fifoImpl [0]).2.1

/-! ### Partitioned scheduler -/

/-- `partition`: a keyed sub-scheduler with its membership index
(`cache map[string]struct{}`, modelled by its key list). -/
structure Partition (σ : Type) where
  key : String
  value : σ
  cache : List String
deriving DecidableEq, Repr

/-- `priorityIterator`: a priority level — its priority value, its
partition list, and the round-robin cursor `pos`. -/
structure PriorityIterator (σ : Type) where
  priority : Nat
  partitions : List (Partition σ)
  pos : Nat
deriving DecidableEq, Repr

/-- `PartitionedScheduler`: the partitioner and the priority-level list
(sorted descending by priority). -/
structure PartitionedScheduler (σ : Type) where
  partitioner : Task → String × Nat × (Unit → σ)
  prioritizedPartitions : List (PriorityIterator σ)

/-- `NewPartitionedScheduler`: no levels yet. -/
def NewPartitionedScheduler (p : Task → String × Nat × (Unit → σ)) :
    PartitionedScheduler σ :=
  { partitioner := p, prioritizedPartitions := [] }

/-- `PartitionedScheduler.Contains`: search every cache of every level. -/
def PartitionedScheduler.Contains (s : PartitionedScheduler σ) (t : Task) : Bool :=
  s.prioritizedPartitions.any fun lvl =>
    lvl.partitions.any fun part => part.cache.contains t.id

/-- The level-search loop of `PartitionedScheduler.Put`: stop at the
first level with the wanted priority, or insert a fresh level just
before the first level of smaller priority (appending at the end when
none matches), returning the updated list and the index of the level
with that priority. -/
def findOrInsertLevel (pri : Nat) :
    List (PriorityIterator σ) → List (PriorityIterator σ) × Nat
  | [] => ([{ priority := pri, partitions := [], pos := 0 }], 0)
  | lvl :: rest =>
    if lvl.priority = pri then (lvl :: rest, 0)
    else if lvl.priority < pri then
      ({ priority := pri, partitions := [], pos := 0 } :: lvl :: rest, 0)
    else
      let res := findOrInsertLevel pri rest
      (lvl :: res.1, res.2 + 1)

/-- Insertion into a `map[string]struct{}`. -/
def insertId (cache : List String) (i : String) : List String :=
  if cache.contains i then cache else cache ++ [i]

/-- The partition-search loop inside `PartitionedScheduler.Put`: the Go
loop advances the cursor (`pos = (pos+1) % len`) before each key test,
so iteration `i` inspects index `(pos + 1 + i) % len`; the first match
wins.  An empty partition list yields no match. -/
def findKeyIdx (ps : List (Partition σ)) (pos : Nat) (key : String) : Option Nat :=
  (List.range ps.length).findSome? fun i =>
    let idx := (pos + 1 + i) % ps.length
    match ps[idx]? with
    | some part => if part.key = key then some idx else none
    | none => none

/-- The within-level part of `PartitionedScheduler.Put`: find the
partition with the task's key (leaving the cursor on it) or append a
fresh one built from the factory (leaving the cursor on the new last
index), then add the identifier to that partition's cache and the task
to its sub-scheduler. -/
def putInLevel (impl : SchedulerImpl σ) (lvl : PriorityIterator σ) (key : String)
    (fact : Unit → σ) (t : Task) : PriorityIterator σ :=
  match findKeyIdx lvl.partitions lvl.pos key with
  | some idx =>
    { lvl with
      pos := idx,
      partitions := modifyAt
        (fun part =>
          { part with cache := insertId part.cache t.id,
                      value := impl.put part.value [t] })
        idx lvl.partitions }
  | none =>
    { lvl with
      pos := lvl.partitions.length,
      partitions := lvl.partitions ++
        [{ key := key, value := impl.put (fact ()) [t], cache := insertId [] t.id }] }

/-- One iteration of the `PartitionedScheduler.Put` loop: drop a
contained task, otherwise route it via the partitioner to its priority
level and partition. -/
def partitionedPut1 (impl : SchedulerImpl σ) (s : PartitionedScheduler σ)
    (t : Task) : PartitionedScheduler σ :=
  if s.Contains t then s
  else
    let res := s.partitioner t
    let lv := findOrInsertLevel res.2.1 s.prioritizedPartitions
    { s with prioritizedPartitions :=
        modifyAt (fun lvl => putInLevel impl lvl res.1 res.2.2 t) lv.2 lv.1 }

/-- `PartitionedScheduler.Put`: insert the tasks in argument order. -/
def PartitionedScheduler.Put (impl : SchedulerImpl σ) (s : PartitionedScheduler σ)
    (ts : List Task) : PartitionedScheduler σ :=
  ts.foldl (partitionedPut1 impl) s

/-- The round-robin probe loop of `PartitionedScheduler.Next` within one
level: starting at offset `i` from the cursor, call `Next` on each
partition's sub-scheduler in turn (threading any state change even on an
empty answer, as the Go interface call may mutate the sub-scheduler); on
the first non-empty answer, delete the returned identifier from that
partition's cache and report the offset that served.  `fuel` counts the
remaining loop iterations (`len(partitions) - i` at entry). -/
def levelNextAux (impl : SchedulerImpl σ) :
    Nat → List (Partition σ) → Nat → Nat →
      Option (ScheduledTask × Nat) × List (Partition σ)
  | 0, ps, _, _ => (none, ps)
  | fuel + 1, ps, pos, i =>
    let idx := (pos + i) % ps.length
    match ps[idx]? with
    | none => (none, ps)
    | some part =>
      match impl.next part.value with
      | (some t, v2) =>
        (some (t, i),
          ps.set idx
            { part with value := v2, cache := part.cache.filter (· ≠ t.task.id) })
      | (none, v2) =>
        levelNextAux impl fuel (ps.set idx { part with value := v2 }) pos (i + 1)

/-- The per-level step of `PartitionedScheduler.Next`: run the probe
loop; on success advance the cursor to just after the partition that
served (`pos = (pos + i + 1) % len`). -/
def PriorityIterator.nextTask (impl : SchedulerImpl σ) (lvl : PriorityIterator σ) :
    Option ScheduledTask × PriorityIterator σ :=
  match levelNextAux impl lvl.partitions.length lvl.partitions lvl.pos 0 with
  | (some (t, i), ps) =>
    (some t,
      { lvl with partitions := ps, pos := (lvl.pos + i + 1) % lvl.partitions.length })
  | (none, ps) => (none, { lvl with partitions := ps })

/-- The level loop of `PartitionedScheduler.Next`: serve from the first
level (in stored, priority-descending order) whose probe succeeds.  The
`Nat` reports the index of the level that served; levels after it are
untouched. -/
def nextLevels (impl : SchedulerImpl σ) :
    List (PriorityIterator σ) →
      Option (ScheduledTask × Nat) × List (PriorityIterator σ)
  | [] => (none, [])
  | lvl :: rest =>
    match lvl.nextTask impl with
    | (some t, lvl2) => (some (t, 0), lvl2 :: rest)
    | (none, lvl2) =>
      match nextLevels impl rest with
      | (some (t, j), rest2) => (some (t, j + 1), lvl2 :: rest2)
      | (none, rest2) => (none, lvl2 :: rest2)

/-- `PartitionedScheduler.Next`: first level that yields, round-robin
within the level. -/
def PartitionedScheduler.Next (impl : SchedulerImpl σ) (s : PartitionedScheduler σ) :
    Option ScheduledTask × PartitionedScheduler σ :=
  match nextLevels impl s.prioritizedPartitions with
  | (some (t, _), ls) => (some t, { s with prioritizedPartitions := ls })
  | (none, ls) => (none, { s with prioritizedPartitions := ls })

/-- The partition loop of `PartitionedScheduler.Remove` within a level:
delegate to each sub-scheduler in stored order; on a hit, delete the
identifier from that partition's cache and stop. -/
def removePartitions (impl : SchedulerImpl σ) :
    List (Partition σ) → String → Option Task × List (Partition σ)
  | [], _ => (none, [])
  | part :: rest, i =>
    match impl.remove part.value i with
    | (some t, v2) =>
      (some t, { part with value := v2, cache := part.cache.filter (· ≠ i) } :: rest)
    | (none, v2) =>
      let res := removePartitions impl rest i
      (res.1, { part with value := v2 } :: res.2)

/-- The level loop of `PartitionedScheduler.Remove`. -/
def removeLevels (impl : SchedulerImpl σ) :
    List (PriorityIterator σ) → String → Option Task × List (PriorityIterator σ)
  | [], _ => (none, [])
  | lvl :: rest, i =>
    match removePartitions impl lvl.partitions i with
    | (some t, ps) => (some t, { lvl with partitions := ps } :: rest)
    | (none, ps) =>
      let res := removeLevels impl rest i
      (res.1, { lvl with partitions := ps } :: res.2)

/-- `PartitionedScheduler.Remove`: linear search over all levels and
partitions. -/
def PartitionedScheduler.Remove (impl : SchedulerImpl σ) (s : PartitionedScheduler σ)
    (i : String) : Option Task × PartitionedScheduler σ :=
  let res := removeLevels impl s.prioritizedPartitions i
  (res.1, { s with prioritizedPartitions := res.2 })

/-- `PartitionedScheduler.Size`: sum of the sub-scheduler sizes. -/
def PartitionedScheduler.Size (impl : SchedulerImpl σ) (s : PartitionedScheduler σ) :
    Nat :=
  (s.prioritizedPartitions.map fun lvl =>
    (lvl.partitions.map fun part => impl.size part.value).sum).sum

/-- An operation of the scheduler contract, for quantifying over
operation sequences. -/
inductive SchedOp where
  | put (ts : List Task)
  | next
  | remove (i : String)

/-- Apply one contract operation to a partitioned scheduler. -/
def applyOp (impl : SchedulerImpl σ) (s : PartitionedScheduler σ) :
    SchedOp → PartitionedScheduler σ
  | .put ts => PartitionedScheduler.Put impl s ts
  | .next => (PartitionedScheduler.Next impl s).2
  | .remove i => (PartitionedScheduler.Remove impl s i).2

/-- Apply a sequence of contract operations. -/
def applyOps (impl : SchedulerImpl σ) (s : PartitionedScheduler σ)
    (ops : List SchedOp) : PartitionedScheduler σ :=
  ops.foldl (applyOp impl) s

/-- The priority values of the levels, in stored order. -/
def prioritiesOf (s : PartitionedScheduler σ) : List Nat :=
  s.prioritizedPartitions.map PriorityIterator.priority

/-- The shape of a partition: everything except the sub-scheduler
state. -/
def partShape (part : Partition σ) : String × List String :=
  (part.key, part.cache)

/-- Everything about a priority level except the sub-scheduler states:
priority, cursor, and each partition's key and membership cache. -/
def levelShape (lvl : PriorityIterator σ) : Nat × Nat × List (String × List String) :=
  (lvl.priority, lvl.pos, lvl.partitions.map partShape)

/-- The outputs of `n` successive `Next` calls on a partitioned
scheduler. -/
def partitionedDrain (impl : SchedulerImpl σ) (s : PartitionedScheduler σ) :
    Nat → List (Option ScheduledTask)
  | 0 => []
  | n + 1 =>
    let res := PartitionedScheduler.Next impl s
    res.1 :: partitionedDrain impl res.2 n

/-- The even/odd partitioner of the round-robin scenario: identifiers
`"2"` and `"4"` (the even tasks used) map to key `"even"`, the others to
`"odd"`, all at priority 1 with the fresh-FIFO factory. -/
def parityPartitioner (t : Task) : String × Nat × (Unit → FifoScheduler) :=
  if t.id = "2" ∨ t.id = "4" then ("even", 1, fun _ => NewFifoScheduler)
  else ("odd", 1, fun _ => NewFifoScheduler)

/-- A concrete priority level whose single `"odd"` partition holds one
task. -/
def c7Level : PriorityIterator FifoScheduler :=
  ⟨1, [⟨"odd", ⟨[⟨"1"⟩], ["1"], 16, 1⟩, ["1"]⟩], 0⟩

/-- `c7Level` after its task has been served. -/
def c7LevelAfter : PriorityIterator FifoScheduler :=
  ⟨1, [⟨"odd", ⟨[], [], 16, 1⟩, []⟩], 0⟩

/-- A concrete partitioned scheduler with one level holding one drained
partition. -/
def c10State : PartitionedScheduler FifoScheduler :=
  ⟨parityPartitioner, [⟨1, [⟨"odd", ⟨[], [], 16, 1⟩, []⟩], 0⟩]⟩

/-- A partitioner with two priorities: task `"a"` at priority 2,
everything else at priority 1, all under one key with FIFO factories. -/
def twoPriPartitioner (t : Task) : String × Nat × (Unit → FifoScheduler) :=
  if t.id = "a" then ("k", 2, fun _ => NewFifoScheduler)
  else ("k", 1, fun _ => NewFifoScheduler)

/-! ## Theorems -/

/-! ### Resource layer lemmas -/

theorem anyExceeds_eq_true_iff (a v : List Int) :
    anyExceeds a v = true ↔
      ∃ i, ∃ h1 : i < a.length, ∃ h2 : i < v.length, a.get ⟨i, h1⟩ < v.get ⟨i, h2⟩ := by
  induction a generalizing v with
  | nil =>
    simp only [anyExceeds, List.length_nil]
    constructor
    · intro h
      cases h
    · rintro ⟨i, h1, -⟩
      exact absurd h1 (Nat.not_lt_zero i)
  | cons x xs ih =>
    cases v with
    | nil =>
      simp only [anyExceeds, List.length_nil]
      constructor
      · intro h
        cases h
      · rintro ⟨i, -, h2, -⟩
        exact absurd h2 (Nat.not_lt_zero i)
    | cons y ys =>
      simp only [anyExceeds, Bool.or_eq_true, decide_eq_true_eq, ih]
      constructor
      · rintro (hxy | ⟨i, h1, h2, hlt⟩)
        · exact ⟨0, by simp, by simp, by simpa using hxy⟩
        · exact ⟨i + 1, Nat.succ_lt_succ h1, Nat.succ_lt_succ h2, by simpa using hlt⟩
      · rintro ⟨i, h1, h2, hlt⟩
        cases i with
        | zero => exact Or.inl (by simpa using hlt)
        | succ j =>
          exact Or.inr ⟨j, Nat.lt_of_succ_lt_succ h1, Nat.lt_of_succ_lt_succ h2,
            by simpa using hlt⟩

/-- C3: a request whose length differs from the pool capacity length, or
one of whose components exceeds the corresponding available count, is
denied and leaves the available counts unchanged; otherwise `Request`
decrements each available count by the request and returns a fresh
handle whose vector is a copy of the request and whose back-reference
points to the pool. -/
theorem C3_request_grant_or_deny (avail req : List Int) (b : Bool) :
    ((req.length ≠ avail.length ∨
        ∃ i, ∃ h1 : i < avail.length, ∃ h2 : i < req.length,
          avail.get ⟨i, h1⟩ < req.get ⟨i, h2⟩) →
      Request avail ⟨b, req⟩ = (none, avail)) ∧
    (req.length = avail.length →
      (∀ i (h1 : i < avail.length) (h2 : i < req.length),
        req.get ⟨i, h2⟩ ≤ avail.get ⟨i, h1⟩) →
      Request avail ⟨b, req⟩ =
        (some { pool := true, resources := req }, List.zipWith (· - ·) avail req)) := by
  constructor
  · rintro (hlen | hexc)
    · simp [Request, hlen]
    · by_cases hlen : req.length = avail.length
      · have hx : anyExceeds avail req = true := (anyExceeds_eq_true_iff avail req).2 hexc
        simp [Request, hlen, hx]
      · simp [Request, hlen]
  · intro hlen hle
    have hx : anyExceeds avail req = false := by
      cases h : anyExceeds avail req with
      | false => rfl
      | true =>
        obtain ⟨i, h1, h2, hlt⟩ := (anyExceeds_eq_true_iff avail req).1 h
        exact absurd (hle i h1 h2) (not_le_of_lt hlt)
    simp [Request, hlen, hx]

/-- C3 witness: with availability `[1, 2]`, the request `[1, 0]` is
granted (availability becomes `[0, 2]`) and the wrong-length request
`[1]` is denied with availability unchanged. -/
theorem C3_request_grant_or_deny_witness :
    Request [1, 2] ⟨false, [1, 0]⟩ =
      (some { pool := true, resources := [1, 0] }, [0, 2]) ∧
    Request [0, 2] ⟨false, [1]⟩ = (none, [0, 2]) := by
  constructor
  · have h := (C3_request_grant_or_deny [1, 2] [1, 0] false).2 (by decide)
      (by decide)
    simpa using h
  · exact (C3_request_grant_or_deny [0, 2] [1] false).1 (Or.inl (by decide))

/-- C4: for a handle granted by `Request`, the first `Return` adds the
handle's vector back to the available counts and returns `true`; any
later `Return` returns `false` and leaves the pool unchanged.
Consequently the first `Close` on the `resourceTask` wrapping the handle
returns the resource and later `Close` calls are inert. -/
theorem C4_return_once (avail req : List Int) (b : Bool) (granted : ResourceVector)
    (avail1 : List Int) (tk : Task)
    (h : Request avail ⟨b, req⟩ = (some granted, avail1)) :
    granted.Return avail1 =
      (true, { granted with pool := false },
        List.zipWith (· + ·) avail1 granted.resources) ∧
    (∀ a2, ResourceVector.Return { granted with pool := false } a2 =
      (false, { granted with pool := false }, a2)) ∧
    resourceTask.Close ⟨tk, granted⟩ avail1 =
      (⟨tk, { granted with pool := false }⟩,
        List.zipWith (· + ·) avail1 granted.resources) ∧
    (∀ a2, resourceTask.Close ⟨tk, { granted with pool := false }⟩ a2 =
      (⟨tk, { granted with pool := false }⟩, a2)) := by
  have hfacts : granted = ⟨true, req⟩ ∧
      avail1 = List.zipWith (· - ·) avail req ∧ req.length = avail.length := by
    unfold Request at h
    by_cases h1 : req.length = avail.length
    · by_cases h2 : anyExceeds avail req
      · simp [h1, h2] at h
      · simp [h1, h2] at h
        exact ⟨h.1.symm, h.2.symm, h1⟩
    · simp [h1] at h
  obtain ⟨hg, ha1, hlen⟩ := hfacts
  subst hg
  subst ha1
  have hlen1 : (List.zipWith (· - ·) avail req).length = req.length := by
    rw [List.length_zipWith, ← hlen, Nat.min_self]
  have hret : ResourceVector.Return ⟨true, req⟩ (List.zipWith (· - ·) avail req) =
      (true, ⟨false, req⟩,
        List.zipWith (· + ·) (List.zipWith (· - ·) avail req) req) := by
    simp [ResourceVector.Return, poolAdd, hlen1]
  refine ⟨hret, fun a2 => rfl, ?_, fun a2 => rfl⟩
  unfold resourceTask.Close
  rw [hret]

/-- C4 witness: pool `[1, 2]`, grant for `[1, 0]` (availability `[0, 2]`):
the first `Return` yields `true` and availability `[1, 2]`; the second
`Return` yields `false` and leaves availability `[1, 2]`; the second
`Close` on the wrapping task leaves the state unchanged. -/
theorem C4_return_once_witness :
    ResourceVector.Return ⟨true, [1, 0]⟩ [0, 2] = (true, ⟨false, [1, 0]⟩, [1, 2]) ∧
    ResourceVector.Return ⟨false, [1, 0]⟩ [1, 2] = (false, ⟨false, [1, 0]⟩, [1, 2]) ∧
    resourceTask.Close ⟨⟨"1"⟩, ⟨false, [1, 0]⟩⟩ [1, 2] =
      (⟨⟨"1"⟩, ⟨false, [1, 0]⟩⟩, [1, 2]) := by
  have h := C4_return_once [1, 2] [1, 0] false ⟨true, [1, 0]⟩ [0, 2] ⟨"1"⟩ (by decide)
  exact ⟨by simpa using h.1, by simpa using h.2.1 [1, 2], by simpa using h.2.2.2 [1, 2]⟩

/-- C9: a resource built by `NewResourceVectorRequest` carries no pool
back-reference, so `Return` on it returns `false` — even on the first
call — and leaves any pool's available counts unchanged. -/
theorem C9_unattached_return_false (res avail : List Int) :
    (NewResourceVectorRequest res).pool = false ∧
    (NewResourceVectorRequest res).Return avail =
      (false, NewResourceVectorRequest res, avail) := by
  exact ⟨rfl, rfl⟩

/-! ### FIFO lemmas -/

theorem fifoDrain_empty (f : FifoScheduler) (h : f.elements = []) (n : Nat) :
    fifoDrain f n = List.replicate n none := by
  induction n generalizing f with
  | zero => rfl
  | succ n ih =>
    have hnext : f.Next = (none, f) := by
      unfold FifoScheduler.Next
      rw [h]
    simp [fifoDrain, hnext, ih f h, List.replicate_succ]

theorem fifoDrain_of_elements (l : List Task) (f : FifoScheduler) (k : Nat)
    (h : f.elements = l) :
    fifoDrain f (l.length + k) =
      l.map (fun t => some ⟨t⟩) ++ List.replicate k none := by
  induction l generalizing f with
  | nil => simpa using fifoDrain_empty f h k
  | cons t rest ih =>
    have hnext : f.Next =
        (some ⟨t⟩, { f with elements := rest, elementMap := f.elementMap.filter (· ≠ t.id) }) := by
      unfold FifoScheduler.Next
      rw [h]
    have hlen : rest.length + 1 + k = rest.length + k + 1 := by omega
    simp only [List.length_cons, hlen, fifoDrain, hnext, List.map_cons, List.cons_append]
    exact congrArg _ (ih _ rfl)

theorem fifo_put_elements (f : FifoScheduler) (ts : List Task)
    (hmirror : f.elementMap = f.elements.map Task.id)
    (hnodup : (f.elements.map Task.id ++ ts.map Task.id).Nodup) :
    (f.Put ts).elements = f.elements ++ ts ∧
    (f.Put ts).elementMap = (f.elements ++ ts).map Task.id := by
  suffices h : ∀ g : FifoScheduler, g.elementMap = g.elements.map Task.id →
      (g.elements.map Task.id ++ ts.map Task.id).Nodup →
      (ts.foldl FifoScheduler.putOne g).elements = g.elements ++ ts ∧
      (ts.foldl FifoScheduler.putOne g).elementMap = (g.elements ++ ts).map Task.id by
    have hres := h f hmirror hnodup
    unfold FifoScheduler.Put
    by_cases hc :
        (ts.foldl FifoScheduler.putOne f).maxUnusedSliceSpace ≤
          (ts.foldl FifoScheduler.putOne f).unusedSliceCount
    · simpa [hc] using hres
    · simpa [hc] using hres
  clear hmirror hnodup
  induction ts with
  | nil =>
    intro g hg _
    exact ⟨by simp, by simp [hg]⟩
  | cons t rest ih =>
    intro g hg hnd
    have hnotmem : t.id ∉ g.elementMap := by
      rw [hg]
      have h3 := (List.nodup_append.1 hnd).2.2
      intro hmem
      exact h3 hmem (by simp)
    have hput : g.putOne t =
        { g with
          elements := g.elements ++ [t],
          unusedSliceCount := (g.unusedSliceCount + 1) % 256,
          elementMap := g.elementMap ++ [t.id] } := by
      unfold FifoScheduler.putOne
      simp [hnotmem]
    have hg2 : (g.putOne t).elementMap = (g.putOne t).elements.map Task.id := by
      rw [hput]
      simp [hg]
    have hnd2 : ((g.putOne t).elements.map Task.id ++ rest.map Task.id).Nodup := by
      rw [hput]
      simpa using hnd
    have hres := ih (g.putOne t) hg2 hnd2
    refine ⟨?_, ?_⟩
    · rw [List.foldl_cons, hres.1, hput]
      simp
    · rw [List.foldl_cons, hres.2, hput]
      simp

/-- C6: the FIFO scheduler returns distinct tasks in strict insertion
order and then returns nothing: after `Put ts` on a fresh scheduler with
pairwise-distinct identifiers, the outputs of `ts.length + k` successive
`Next` calls are exactly the tasks of `ts` in order followed by `k`
empty returns; moreover `Put` appended exactly the tasks and indexed
exactly their identifiers. -/
theorem C6_fifo_insertion_order (ts : List Task) (k : Nat)
    (hnodup : (ts.map Task.id).Nodup) :
    fifoDrain (NewFifoScheduler.Put ts) (ts.length + k) =
      ts.map (fun t => some ⟨t⟩) ++ List.replicate k none ∧
    (NewFifoScheduler.Put ts).elements = ts ∧
    (NewFifoScheduler.Put ts).elementMap = ts.map Task.id := by
  have hput := fifo_put_elements NewFifoScheduler ts rfl (by simpa using hnodup)
  refine ⟨?_, by simpa using hput.1, by simpa using hput.2⟩
  have he : (NewFifoScheduler.Put ts).elements = ts := by simpa using hput.1
  simpa using fifoDrain_of_elements ts (NewFifoScheduler.Put ts) k he

/-- C6 witness: putting `t1, t2` yields `t1`, then `t2`, then nothing. -/
theorem C6_fifo_insertion_order_witness :
    fifoDrain (NewFifoScheduler.Put [⟨"1"⟩, ⟨"2"⟩]) 3 =
      [some ⟨⟨"1"⟩⟩, some ⟨⟨"2"⟩⟩, none] := by
  have h := (C6_fifo_insertion_order [⟨"1"⟩, ⟨"2"⟩] 1 (by decide)).1
  simpa using h

/-! ### Resource-managed scheduler lemmas -/

theorem Request_none_avail (avail : List Int) (v : ResourceVector) (a2 : List Int)
    (h : Request avail v = (none, a2)) : a2 = avail := by
  unfold Request at h
  by_cases h1 : v.resources.length = avail.length
  · by_cases h2 : anyExceeds avail v.resources
    · simp [h1, h2] at h
      exact h.symm
    · simp [h1, h2] at h
  · simp [h1] at h
    exact h.symm

/-- After a `Next` that parked a task (returned nothing with the parked
slot occupied), the scheduler-and-pool state is a fixpoint of `Next`. -/
theorem rms_parked_fixpoint (impl : SchedulerImpl σ)
    (r r1 : ResourceManagedScheduler σ) (avail avail1 : List Int) (t : Task)
    (hnext : ResourceManagedScheduler.Next impl r avail = (none, r1, avail1))
    (hpark : r1.waiting = some t) :
    ResourceManagedScheduler.Next impl r1 avail1 = (none, r1, avail1) := by
  have hdeny : Request avail1 (r1.resourceCalculator t) = (none, avail1) := by
    cases hw : r.waiting with
    | some w =>
      cases hreq : Request avail (r.resourceCalculator w) with
      | mk o a2 =>
        cases o with
        | none =>
          simp only [ResourceManagedScheduler.Next, hw, hreq] at hnext
          simp only [Prod.mk.injEq, true_and] at hnext
          obtain ⟨hr1, ha1⟩ := hnext
          have ha : a2 = avail := Request_none_avail _ _ _ hreq
          subst hr1
          rw [hw] at hpark
          have hw2 : w = t := by simpa using hpark
          subst hw2
          rw [← ha1, ha]
          rw [ha] at hreq
          exact hreq
        | some alloc =>
          simp only [ResourceManagedScheduler.Next, hw, hreq] at hnext
          simp at hnext
    | none =>
      cases hun : impl.next r.underlying with
      | mk o u2 =>
        cases o with
        | none =>
          simp only [ResourceManagedScheduler.Next, hw, hun] at hnext
          simp only [Prod.mk.injEq, true_and] at hnext
          obtain ⟨hr1, -⟩ := hnext
          rw [← hr1] at hpark
          simp [hw] at hpark
        | some nt =>
          cases hreq : Request avail (r.resourceCalculator nt.task) with
          | mk o2 a2 =>
            cases o2 with
            | none =>
              simp only [ResourceManagedScheduler.Next, hw, hun, hreq] at hnext
              simp only [Prod.mk.injEq, true_and] at hnext
              obtain ⟨hr1, ha1⟩ := hnext
              have ha : a2 = avail := Request_none_avail _ _ _ hreq
              have ht : nt.task = t := by
                rw [← hr1] at hpark
                simpa using hpark
              rw [← hr1]
              show Request avail1 (r.resourceCalculator t) = (none, avail1)
              rw [← ht, ← ha1, ha]
              rw [ha] at hreq
              exact hreq
            | some alloc =>
              simp only [ResourceManagedScheduler.Next, hw, hun, hreq] at hnext
              simp at hnext
  simp only [ResourceManagedScheduler.Next, hpark, hdeny]

/-- C8: once `Next` on a resource-managed scheduler returns nothing with
a task parked (the pool denied the drawn task's request), every
subsequent `Next` — the pool state being threaded unchanged, with no
intervening `Close` or `Return` — again returns nothing, the parked task
stays the same, and `Contains` on the parked task returns true
throughout. -/
theorem C8_starvation_persists (impl : SchedulerImpl σ)
    (r r1 : ResourceManagedScheduler σ) (avail avail1 : List Int) (t : Task)
    (hnext : ResourceManagedScheduler.Next impl r avail = (none, r1, avail1))
    (hpark : r1.waiting = some t) :
    ResourceManagedScheduler.Next impl r1 avail1 = (none, r1, avail1) ∧
    (∀ n, rmsIterNext impl n (r1, avail1) = (r1, avail1)) ∧
    ResourceManagedScheduler.Contains impl r1 t = true := by
  have hfix := rms_parked_fixpoint impl r r1 avail avail1 t hnext hpark
  refine ⟨hfix, ?_, ?_⟩
  · intro n
    induction n with
    | zero => rfl
    | succ n ih =>
      show rmsIterNext impl (n + 1) (r1, avail1) = (r1, avail1)
      unfold rmsIterNext
      rw [hfix]
      exact ih
  · unfold ResourceManagedScheduler.Contains
    rw [hpark]
    simp

/-- C8 witness: underlying FIFO holding `t1`, pool `[0]`, calculator
always requesting `[1]`: the first `Next` parks `t1` and returns
nothing, and the situation persists over two further `Next` calls with
`Contains t1` true. -/
theorem C8_starvation_persists_witness :
    (ResourceManagedScheduler.Next fifoImpl
        { waiting := some ⟨"1"⟩,
          underlying := ⟨[], [], 16, 1⟩,
          resourceCalculator := fun _ => NewResourceVectorRequest [1] }
        [0]).1 = none ∧
    (rmsIterNext fifoImpl 2
        ({ waiting := some ⟨"1"⟩,
           underlying := ⟨[], [], 16, 1⟩,
           resourceCalculator := fun _ => NewResourceVectorRequest [1] }, [0])).2 = [0] ∧
    ResourceManagedScheduler.Contains fifoImpl
      { waiting := some ⟨"1"⟩,
        underlying := ⟨[], [], 16, 1⟩,
        resourceCalculator := fun _ => NewResourceVectorRequest [1] }
      ⟨"1"⟩ = true := by
  have h := C8_starvation_persists (σ := FifoScheduler) fifoImpl
    { waiting := none,
      underlying := (NewFifoScheduler.Put [⟨"1"⟩]),
      resourceCalculator := fun _ => NewResourceVectorRequest [1] }
    { waiting := some ⟨"1"⟩,
      underlying := ⟨[], [], 16, 1⟩,
      resourceCalculator := fun _ => NewResourceVectorRequest [1] }
    [0] [0] ⟨"1"⟩ rfl rfl
  refine ⟨by rw [h.1], ?_, h.2.2⟩
  rw [h.2.1 2]

/-- C1 (divergence witness): with `t1` parked, `Contains t1` is true and
`Size` is 1, yet `Put t1` is not dropped: it is delegated to the
underlying scheduler, `Size` grows to 2, and a second task with the same
identifier becomes contained in the underlying scheduler while `t1` is
still parked.  This contradicts the claimed duplicate suppression (and
the `Put` contract stated in the source's `Scheduler` interface). -/
theorem C1_put_parked_inserts_duplicate :
    ResourceManagedScheduler.Contains fifoImpl rmsParkedState ⟨"1"⟩ = true ∧
    ResourceManagedScheduler.Size fifoImpl rmsParkedState = 1 ∧
    ResourceManagedScheduler.Size fifoImpl
      (rmsParkedState.Put fifoImpl [⟨"1"⟩]) = 2 ∧
    (rmsParkedState.Put fifoImpl [⟨"1"⟩]).waiting = some ⟨"1"⟩ ∧
    fifoImpl.contains (rmsParkedState.Put fifoImpl [⟨"1"⟩]).underlying ⟨"1"⟩ = true := by
  refine ⟨by decide, by decide, by decide, by decide, by decide⟩

/-- C2 (divergence witness): with `t1` parked, `Remove("1")` returns
`t1` but does not clear the parked slot: afterwards the task is still
parked, `Contains t1` is still true and `Size` is unchanged at 1 —
contrary to the claimed transition to the idle state. -/
theorem C2_remove_parked_leaves_slot :
    (rmsParkedState.Remove fifoImpl "1").1 = some ⟨"1"⟩ ∧
    (rmsParkedState.Remove fifoImpl "1").2.waiting = some ⟨"1"⟩ ∧
    ResourceManagedScheduler.Contains fifoImpl
      (rmsParkedState.Remove fifoImpl "1").2 ⟨"1"⟩ = true ∧
    ResourceManagedScheduler.Size fifoImpl
      (rmsParkedState.Remove fifoImpl "1").2 = 1 := by
  refine ⟨by decide, by decide, by decide, by decide⟩

/-! ### Partitioned scheduler lemmas: round robin and frame -/

theorem levelNextAux_bounds (impl : SchedulerImpl σ) :
    ∀ (fuel : Nat) (ps : List (Partition σ)) (pos i : Nat) (t : ScheduledTask)
      (j : Nat) (ps2 : List (Partition σ)),
      levelNextAux impl fuel ps pos i = (some (t, j), ps2) →
      i ≤ j ∧ j < i + fuel := by
  intro fuel
  induction fuel with
  | zero =>
    intro ps pos i t j ps2 h
    simp [levelNextAux] at h
  | succ fuel ih =>
    intro ps pos i t j ps2 h
    simp only [levelNextAux] at h
    split at h
    · simp at h
    · split at h
      · simp only [Prod.mk.injEq, Option.some.injEq] at h
        obtain ⟨⟨-, hj⟩, -⟩ := h
        omega
      · have hb := ih _ _ _ _ _ _ h
        omega

/-- C7: within a priority level, `Next` probes partitions round-robin
starting at the cursor and, on success, advances the cursor to the
partition after the one that served (`pos + i + 1` modulo the partition
count, where `i` is the probe offset at which the serve happened).
Concretely, with the even/odd partitioner at equal priority 1 and FIFO
factories, after putting `1, 3, 2, 4, 5` the `Next` outputs are
`1, 2, 3, 4, 5` and then nothing. -/
theorem C7_round_robin :
    (∀ (σ : Type) (impl : SchedulerImpl σ) (lvl : PriorityIterator σ)
        (t : ScheduledTask) (lvl2 : PriorityIterator σ),
      lvl.nextTask impl = (some t, lvl2) →
      ∃ i, i < lvl.partitions.length ∧
        lvl2.pos = (lvl.pos + i + 1) % lvl.partitions.length) ∧
    partitionedDrain fifoImpl
      (PartitionedScheduler.Put fifoImpl (NewPartitionedScheduler parityPartitioner)
        [⟨"1"⟩, ⟨"3"⟩, ⟨"2"⟩, ⟨"4"⟩, ⟨"5"⟩]) 6 =
      [some ⟨⟨"1"⟩⟩, some ⟨⟨"2"⟩⟩, some ⟨⟨"3"⟩⟩, some ⟨⟨"4"⟩⟩, some ⟨⟨"5"⟩⟩, none] := by
  constructor
  · intro σ impl lvl t lvl2 h
    unfold PriorityIterator.nextTask at h
    cases haux : levelNextAux impl lvl.partitions.length lvl.partitions lvl.pos 0 with
    | mk o ps =>
      cases o with
      | none =>
        rw [haux] at h
        simp at h
      | some pr =>
        obtain ⟨t0, j⟩ := pr
        rw [haux] at h
        simp only [Prod.mk.injEq, Option.some.injEq] at h
        obtain ⟨-, hl⟩ := h
        have hb := levelNextAux_bounds impl _ _ _ _ _ _ _ haux
        refine ⟨j, by omega, ?_⟩
        rw [← hl]
  · decide

/-- C7 witness: a level with a single loaded partition and cursor 0
serves at probe offset 0 and leaves the cursor at `(0 + 0 + 1) % 1`. -/
theorem C7_round_robin_witness :
    ∃ i, i < c7Level.partitions.length ∧
      c7LevelAfter.pos = (c7Level.pos + i + 1) % c7Level.partitions.length :=
  C7_round_robin.1 FifoScheduler fifoImpl c7Level ⟨⟨"1"⟩⟩ c7LevelAfter (by decide)

theorem map_set_same (g : α → β) :
    ∀ (l : List α) (i : Nat) (a : α), l[i]? = some a →
      ∀ b, g b = g a → (l.set i b).map g = l.map g := by
  intro l
  induction l with
  | nil =>
    intro i a h
    simp at h
  | cons x xs ih =>
    intro i a h b hg
    cases i with
    | zero =>
      simp only [List.getElem?_cons_zero, Option.some.injEq] at h
      subst h
      simp [hg]
    | succ n =>
      simp only [List.getElem?_cons_succ] at h
      simp only [List.set_cons_succ, List.map_cons]
      rw [ih n a h b hg]

theorem levelNextAux_none_shape (impl : SchedulerImpl σ) :
    ∀ (fuel : Nat) (ps : List (Partition σ)) (pos i : Nat) (ps2 : List (Partition σ)),
      levelNextAux impl fuel ps pos i = (none, ps2) →
      ps2.map partShape = ps.map partShape := by
  intro fuel
  induction fuel with
  | zero =>
    intro ps pos i ps2 h
    simp only [levelNextAux, Prod.mk.injEq] at h
    rw [← h.2]
  | succ fuel ih =>
    intro ps pos i ps2 h
    simp only [levelNextAux] at h
    split at h
    · simp only [Prod.mk.injEq] at h
      rw [← h.2]
    · rename_i part hidx
      split at h
      · simp at h
      · have hsh := ih _ _ _ _ h
        rw [hsh]
        exact map_set_same partShape _ _ _ hidx _ rfl

theorem nextTask_none_shape (impl : SchedulerImpl σ) (lvl lvl2 : PriorityIterator σ)
    (h : lvl.nextTask impl = (none, lvl2)) : levelShape lvl2 = levelShape lvl := by
  unfold PriorityIterator.nextTask at h
  cases haux : levelNextAux impl lvl.partitions.length lvl.partitions lvl.pos 0 with
  | mk o ps =>
    cases o with
    | some pr =>
      obtain ⟨t0, j⟩ := pr
      rw [haux] at h
      simp at h
    | none =>
      rw [haux] at h
      simp only [Prod.mk.injEq, true_and] at h
      rw [← h]
      have hsh := levelNextAux_none_shape impl _ _ _ _ _ haux
      unfold levelShape
      simp only
      rw [hsh]

theorem nextLevels_none_shape (impl : SchedulerImpl σ) :
    ∀ (ls ls2 : List (PriorityIterator σ)), nextLevels impl ls = (none, ls2) →
      ls2.map levelShape = ls.map levelShape := by
  intro ls
  induction ls with
  | nil =>
    intro ls2 h
    simp only [nextLevels, Prod.mk.injEq] at h
    rw [← h.2]
  | cons lvl rest ih =>
    intro ls2 h
    simp only [nextLevels] at h
    cases h1 : lvl.nextTask impl with
    | mk o lvl2 =>
      cases o with
      | some t =>
        rw [h1] at h
        simp at h
      | none =>
        rw [h1] at h
        cases h2 : nextLevels impl rest with
        | mk o2 rest2 =>
          cases o2 with
          | some pr =>
            rw [h2] at h
            simp at h
          | none =>
            rw [h2] at h
            simp only [Prod.mk.injEq, true_and] at h
            rw [← h]
            simp only [List.map_cons]
            rw [nextTask_none_shape impl lvl lvl2 h1, ih rest2 h2]

/-- C10: when `Next` on a partitioned scheduler yields nothing, every
priority level keeps its priority, its round-robin cursor and its
partition list's keys and membership caches: no cursor moves, no
membership index changes, and no partition or level is created or
removed (only sub-scheduler states are threaded through the failed
probes). -/
theorem C10_next_none_frame (σ : Type) (impl : SchedulerImpl σ)
    (s : PartitionedScheduler σ)
    (h : (PartitionedScheduler.Next impl s).1 = none) :
    ((PartitionedScheduler.Next impl s).2).prioritizedPartitions.map levelShape =
      s.prioritizedPartitions.map levelShape := by
  cases hn : nextLevels impl s.prioritizedPartitions with
  | mk o ls2 =>
    cases o with
    | some pr =>
      obtain ⟨t, j⟩ := pr
      unfold PartitionedScheduler.Next at h
      rw [hn] at h
      simp at h
    | none =>
      unfold PartitionedScheduler.Next
      rw [hn]
      exact nextLevels_none_shape impl _ _ hn

/-- C10 witness: on a scheduler whose only partition is drained, `Next`
yields nothing and the level shapes are unchanged. -/
theorem C10_next_none_frame_witness :
    ((PartitionedScheduler.Next fifoImpl c10State).2).prioritizedPartitions.map levelShape =
      c10State.prioritizedPartitions.map levelShape :=
  C10_next_none_frame FifoScheduler fifoImpl c10State (by decide)

/-! ### Partitioned scheduler lemmas: priority order -/

theorem findOrInsertLevel_mem (pri : Nat) :
    ∀ (ls : List (PriorityIterator σ)) (x : Nat),
      x ∈ ((findOrInsertLevel pri ls).1.map PriorityIterator.priority) →
      x ∈ ls.map PriorityIterator.priority ∨ x = pri := by
  intro ls
  induction ls with
  | nil =>
    intro x hx
    simp [findOrInsertLevel] at hx
    exact Or.inr hx
  | cons lvl rest ih =>
    intro x hx
    by_cases h1 : lvl.priority = pri
    · simp only [findOrInsertLevel, if_pos h1] at hx
      exact Or.inl hx
    · by_cases h2 : lvl.priority < pri
      · simp only [findOrInsertLevel, if_neg h1, if_pos h2, List.map_cons,
          List.mem_cons] at hx
        rcases hx with h | h | h
        · exact Or.inr h
        · exact Or.inl (by simp [h])
        · exact Or.inl (by simp [h])
      · simp only [findOrInsertLevel, if_neg h1, if_neg h2, List.map_cons,
          List.mem_cons] at hx
        rcases hx with h | h
        · exact Or.inl (by simp [h])
        · rcases ih x h with h3 | h3
          · exact Or.inl (by simp [h3])
          · exact Or.inr h3

theorem findOrInsertLevel_pairwise (pri : Nat) :
    ∀ ls : List (PriorityIterator σ),
      (ls.map PriorityIterator.priority).Pairwise (· > ·) →
      (((findOrInsertLevel pri ls).1).map PriorityIterator.priority).Pairwise (· > ·) := by
  intro ls
  induction ls with
  | nil =>
    intro h
    simp [findOrInsertLevel]
  | cons lvl rest ih =>
    intro h
    rw [List.map_cons, List.pairwise_cons] at h
    obtain ⟨hgt, hrest⟩ := h
    by_cases h1 : lvl.priority = pri
    · simp only [findOrInsertLevel, if_pos h1, List.map_cons]
      exact List.pairwise_cons.2 ⟨hgt, hrest⟩
    · by_cases h2 : lvl.priority < pri
      · simp only [findOrInsertLevel, if_neg h1, if_pos h2, List.map_cons]
        refine List.pairwise_cons.2 ⟨?_, List.pairwise_cons.2 ⟨hgt, hrest⟩⟩
        intro y hy
        simp only [List.mem_cons] at hy
        rcases hy with hy | hy
        · omega
        · have := hgt y hy
          omega
      · simp only [findOrInsertLevel, if_neg h1, if_neg h2, List.map_cons]
        refine List.pairwise_cons.2 ⟨?_, ih hrest⟩
        intro y hy
        rcases findOrInsertLevel_mem pri rest y hy with h3 | h3
        · exact hgt y h3
        · subst h3
          omega

theorem map_modifyAt (f : α → α) (g : α → β) (hf : ∀ x, g (f x) = g x) :
    ∀ (n : Nat) (l : List α), (modifyAt f n l).map g = l.map g := by
  intro n l
  induction l generalizing n with
  | nil => cases n <;> rfl
  | cons x xs ih =>
    cases n with
    | zero => simp [modifyAt, hf]
    | succ m => simp [modifyAt, ih]

theorem putInLevel_priority (impl : SchedulerImpl σ) (lvl : PriorityIterator σ)
    (key : String) (fact : Unit → σ) (t : Task) :
    (putInLevel impl lvl key fact t).priority = lvl.priority := by
  unfold putInLevel
  cases findKeyIdx lvl.partitions lvl.pos key <;> rfl

theorem put1_pairwise (impl : SchedulerImpl σ) (s : PartitionedScheduler σ) (t : Task)
    (h : (prioritiesOf s).Pairwise (· > ·)) :
    (prioritiesOf (partitionedPut1 impl s t)).Pairwise (· > ·) := by
  by_cases hc : s.Contains t = true
  · simpa [partitionedPut1, if_pos hc] using h
  · simp only [partitionedPut1, if_neg hc]
    unfold prioritiesOf
    simp only
    rw [map_modifyAt _ _ (fun lvl => putInLevel_priority impl lvl _ _ t)]
    exact findOrInsertLevel_pairwise _ _ h

theorem put_pairwise (impl : SchedulerImpl σ) (ts : List Task) :
    ∀ s : PartitionedScheduler σ, (prioritiesOf s).Pairwise (· > ·) →
      (prioritiesOf (PartitionedScheduler.Put impl s ts)).Pairwise (· > ·) := by
  induction ts with
  | nil =>
    intro s h
    exact h
  | cons t rest ih =>
    intro s h
    exact ih _ (put1_pairwise impl s t h)

theorem nextTask_priority (impl : SchedulerImpl σ) (lvl : PriorityIterator σ) :
    ((lvl.nextTask impl).2).priority = lvl.priority := by
  unfold PriorityIterator.nextTask
  cases levelNextAux impl lvl.partitions.length lvl.partitions lvl.pos 0 with
  | mk o ps =>
    cases o with
    | some pr =>
      obtain ⟨t, i⟩ := pr
      rfl
    | none => rfl

theorem nextLevels_priorities (impl : SchedulerImpl σ) :
    ∀ ls : List (PriorityIterator σ),
      ((nextLevels impl ls).2).map PriorityIterator.priority =
        ls.map PriorityIterator.priority := by
  intro ls
  induction ls with
  | nil => rfl
  | cons lvl rest ih =>
    simp only [nextLevels]
    cases h1 : lvl.nextTask impl with
    | mk o lvl2 =>
      have hp : lvl2.priority = lvl.priority := by
        have hq := nextTask_priority impl lvl
        rw [h1] at hq
        exact hq
      cases o with
      | some t =>
        simp [hp]
      | none =>
        cases h2 : nextLevels impl rest with
        | mk o2 rest2 =>
          have hr : rest2.map PriorityIterator.priority =
              rest.map PriorityIterator.priority := by
            have hq := ih
            rw [h2] at hq
            exact hq
          cases o2 with
          | some pr =>
            obtain ⟨t, j⟩ := pr
            simp [hp, hr]
          | none => simp [hp, hr]

theorem removeLevels_priorities (impl : SchedulerImpl σ) (i : String) :
    ∀ ls : List (PriorityIterator σ),
      ((removeLevels impl ls i).2).map PriorityIterator.priority =
        ls.map PriorityIterator.priority := by
  intro ls
  induction ls with
  | nil => rfl
  | cons lvl rest ih =>
    simp only [removeLevels]
    cases h1 : removePartitions impl lvl.partitions i with
    | mk o ps =>
      cases o with
      | some t => simp
      | none =>
        cases h2 : removeLevels impl rest i with
        | mk o2 rest2 =>
          have hr : rest2.map PriorityIterator.priority =
              rest.map PriorityIterator.priority := by
            have hq := ih
            rw [h2] at hq
            exact hq
          simp [hr]

theorem next_state_levels (impl : SchedulerImpl σ) (s : PartitionedScheduler σ) :
    ((PartitionedScheduler.Next impl s).2).prioritizedPartitions =
      (nextLevels impl s.prioritizedPartitions).2 := by
  unfold PartitionedScheduler.Next
  cases nextLevels impl s.prioritizedPartitions with
  | mk o ls =>
    cases o with
    | some pr =>
      obtain ⟨t, j⟩ := pr
      rfl
    | none => rfl

theorem applyOp_pairwise (impl : SchedulerImpl σ) (s : PartitionedScheduler σ)
    (op : SchedOp) (h : (prioritiesOf s).Pairwise (· > ·)) :
    (prioritiesOf (applyOp impl s op)).Pairwise (· > ·) := by
  cases op with
  | put ts => exact put_pairwise impl ts s h
  | next =>
    show (prioritiesOf (PartitionedScheduler.Next impl s).2).Pairwise (· > ·)
    unfold prioritiesOf
    rw [next_state_levels, nextLevels_priorities]
    exact h
  | remove i =>
    show (prioritiesOf (PartitionedScheduler.Remove impl s i).2).Pairwise (· > ·)
    unfold prioritiesOf PartitionedScheduler.Remove
    simp only
    rw [removeLevels_priorities]
    exact h

theorem applyOps_pairwise (impl : SchedulerImpl σ)
    (p : Task → String × Nat × (Unit → σ)) (ops : List SchedOp) :
    (prioritiesOf (applyOps impl (NewPartitionedScheduler p) ops)).Pairwise (· > ·) := by
  suffices h : ∀ s : PartitionedScheduler σ, (prioritiesOf s).Pairwise (· > ·) →
      (prioritiesOf (applyOps impl s ops)).Pairwise (· > ·) by
    exact h _ (by simp [prioritiesOf, NewPartitionedScheduler])
  induction ops with
  | nil =>
    intro s hs
    exact hs
  | cons op rest ih =>
    intro s hs
    exact ih _ (applyOp_pairwise impl s op hs)

theorem nextLevels_success (impl : SchedulerImpl σ) :
    ∀ (ls : List (PriorityIterator σ)) (t : ScheduledTask) (j : Nat)
      (ls2 : List (PriorityIterator σ)),
      nextLevels impl ls = (some (t, j), ls2) →
      (∃ lvlj, ls[j]? = some lvlj ∧ (lvlj.nextTask impl).1 = some t) ∧
      ∀ k, k < j → ∀ lvlk, ls[k]? = some lvlk → (lvlk.nextTask impl).1 = none := by
  intro ls
  induction ls with
  | nil =>
    intro t j ls2 h
    simp [nextLevels] at h
  | cons lvl rest ih =>
    intro t j ls2 h
    simp only [nextLevels] at h
    cases h1 : lvl.nextTask impl with
    | mk o lvl2 =>
      cases o with
      | some t0 =>
        rw [h1] at h
        simp only [Prod.mk.injEq, Option.some.injEq] at h
        obtain ⟨⟨ht, hj⟩, -⟩ := h
        refine ⟨⟨lvl, by rw [← hj]; simp, by rw [h1, ht]⟩, ?_⟩
        intro k hk
        omega
      | none =>
        rw [h1] at h
        cases h2 : nextLevels impl rest with
        | mk o2 rest2 =>
          cases o2 with
          | none =>
            rw [h2] at h
            simp at h
          | some pr =>
            obtain ⟨t0, j0⟩ := pr
            rw [h2] at h
            simp only [Prod.mk.injEq, Option.some.injEq] at h
            obtain ⟨⟨ht, hj⟩, -⟩ := h
            obtain ⟨⟨lvlj, hlj, hsome⟩, hnones⟩ := ih t0 j0 rest2 h2
            refine ⟨⟨lvlj, ?_, by rw [← ht]; exact hsome⟩, ?_⟩
            · rw [← hj]
              simpa using hlj
            · intro k hk lvlk hget
              cases k with
              | zero =>
                simp only [List.getElem?_cons_zero, Option.some.injEq] at hget
                subst hget
                rw [h1]
              | succ k0 =>
                have hk0 : k0 < j0 := by omega
                exact hnones k0 hk0 lvlk (by simpa using hget)

theorem sorted_next_priority (impl : SchedulerImpl σ) (ls : List (PriorityIterator σ))
    (hsort : (ls.map PriorityIterator.priority).Pairwise (· > ·))
    (t : ScheduledTask) (j : Nat) (ls2 : List (PriorityIterator σ))
    (lvlj : PriorityIterator σ)
    (h : nextLevels impl ls = (some (t, j), ls2))
    (hj : ls[j]? = some lvlj) :
    ∀ lvl ∈ ls, lvlj.priority < lvl.priority → (lvl.nextTask impl).1 = none := by
  intro lvl hmem hlt
  obtain ⟨-, hnones⟩ := nextLevels_success impl ls t j ls2 h
  have hsort2 : ls.Pairwise (fun a b => a.priority > b.priority) :=
    (List.pairwise_map).1 hsort
  obtain ⟨hjlen, hjget⟩ := List.getElem?_eq_some.1 hj
  obtain ⟨k, hget⟩ := List.mem_iff_get.1 hmem
  rcases Nat.lt_trichotomy k.1 j with hkj | hkj | hkj
  · refine hnones k.1 hkj lvl ?_
    rw [← hget]
    simp [List.getElem?_eq_getElem k.2, List.get_eq_getElem]
  · exfalso
    have hlv : lvl = lvlj := by
      rw [← hjget, ← hget]
      have hfin : k = (⟨j, hjlen⟩ : Fin ls.length) := Fin.ext hkj
      rw [hfin]
      simp [List.get_eq_getElem]
    rw [hlv] at hlt
    omega
  · exfalso
    have hpair := (List.pairwise_iff_get.1 hsort2) ⟨j, hjlen⟩ k
      (by simpa [Fin.lt_def] using hkj)
    rw [hget] at hpair
    have hjv : ls.get ⟨j, hjlen⟩ = lvlj := by
      rw [← hjget]
      simp [List.get_eq_getElem]
    rw [hjv] at hpair
    omega

/-- C5: starting from a fresh partitioned scheduler, after any sequence
of `Put`, `Next` and `Remove` operations the priority-level list is
sorted strictly descending by priority value (hence has at most one
level per priority), and when `Next` serves from a level, every level
with a strictly greater priority yields nothing — no task of priority
`p` is returned while a task with priority greater than `p` is still
retrievable. -/
theorem C5_priority_order (σ : Type) (impl : SchedulerImpl σ)
    (p : Task → String × Nat × (Unit → σ)) (ops : List SchedOp) :
    (prioritiesOf (applyOps impl (NewPartitionedScheduler p) ops)).Pairwise (· > ·) ∧
    ∀ (t : ScheduledTask) (j : Nat) (ls2 : List (PriorityIterator σ))
      (lvlj : PriorityIterator σ),
      nextLevels impl
          (applyOps impl (NewPartitionedScheduler p) ops).prioritizedPartitions =
        (some (t, j), ls2) →
      (applyOps impl (NewPartitionedScheduler p) ops).prioritizedPartitions[j]? =
        some lvlj →
      ∀ lvl ∈ (applyOps impl (NewPartitionedScheduler p) ops).prioritizedPartitions,
        lvlj.priority < lvl.priority → (lvl.nextTask impl).1 = none := by
  have hp := applyOps_pairwise impl p ops
  exact ⟨hp, fun t j ls2 lvlj h hj => sorted_next_priority impl _ hp t j ls2 lvlj h hj⟩

/-- C5 witness: with the two-priority partitioner, after putting `a`
(priority 2) and `b` (priority 1) and serving `a`, `Next` serves `b`
from the priority-1 level while the (now empty) priority-2 level yields
nothing; the level list is sorted strictly descending. -/
theorem C5_priority_order_witness :
    (prioritiesOf (applyOps fifoImpl (NewPartitionedScheduler twoPriPartitioner)
        [.put [⟨"a"⟩, ⟨"b"⟩], .next])).Pairwise (· > ·) ∧
    ((⟨2, [⟨"k", ⟨[], [], 16, 1⟩, []⟩], 0⟩ : PriorityIterator FifoScheduler).nextTask
        fifoImpl).1 = none := by
  have h := C5_priority_order FifoScheduler fifoImpl twoPriPartitioner
    [.put [⟨"a"⟩, ⟨"b"⟩], .next]
  refine ⟨h.1, ?_⟩
  refine h.2 ⟨⟨"b"⟩⟩ 1
    [⟨2, [⟨"k", ⟨[], [], 16, 1⟩, []⟩], 0⟩, ⟨1, [⟨"k", ⟨[], [], 16, 1⟩, []⟩], 0⟩]
    ⟨1, [⟨"k", ⟨[⟨"b"⟩], ["b"], 16, 1⟩, ["b"]⟩], 0⟩
    (by decide) (by decide)
    ⟨2, [⟨"k", ⟨[], [], 16, 1⟩, []⟩], 0⟩ (by decide) (by decide)

end Schedule
